import Mathlib

/-!
Verification of `resume_composer` (`src/resume_composer/substitute_resume.py`).

This file gives a shallow embedding of the data model and operations of the
`ResumeSubstituter` class and proves / refutes the frozen specification claims
about it.

Modelling conventions:
* JSON configuration values are modelled by the inductive type `Json`
  (numbers are modelled as integers; floating-point numbers are out of scope).
* Python runtime errors (`TypeError`, `KeyError`) raised by the resolver are
  modelled with `Except PyErr`.
* Python's `in` operator and subscripting on arbitrary JSON values are
  modelled by `pyContains` / `pySubscript`, faithful to CPython semantics
  (`key in dict` is key membership, `sub in str` is substring search,
  `x in list` is element equality, `in` on `int`/`bool`/`None` raises
  `TypeError`; subscripting a `str`/`list` with a string key raises
  `TypeError`).
* Template text is modelled as `List Char`; `re.findall`, `str.replace` and
  occurrence counting are modelled by `findall`, `pyReplace`, `countOccur`,
  implemented with a structural fuel argument (initialised to the text length,
  which always suffices) so that every definition reduces in the kernel.
* Python's `set(...)` iteration order is unspecified; the substitution loop is
  therefore modelled as acting on an explicit list `order` of distinct
  placeholder identifiers, and theorems quantify over every `order` that is a
  permutation of the deduplicated identifier list.
* Filesystem side effects (`mkdir`, reading and writing files) are not part of
  the modelled functions; the model covers the pure text-to-text and
  path-string computations.
-/

/-- Python runtime error kinds that the modelled code can raise. -/
inductive PyErr where
  | typeError
  | keyError
deriving DecidableEq, Repr

/-- JSON values as loaded by `json.load`.  Numbers are modelled as integers
(the configuration files in the repository use integers; floats are out of
scope as floating point). -/
inductive Json where
  | null
  | bool (b : Bool)
  | num (n : Int)
  | str (s : String)
  | arr (elems : List Json)
  | obj (entries : List (String × Json))

/-- Substring test, modelling Python's `needle in haystack` for strings:
true iff `needle` occurs contiguously in `haystack` (the empty needle always
occurs). -/
def containsSubstr (needle : List Char) : List Char → Bool
  | [] => needle.isEmpty
  | c :: rest => needle.isPrefixOf (c :: rest) || containsSubstr needle rest

/-- Python `repr` of a string: quoted with `'` (or `"` when the string
contains `'` but no `"`), escaping the backslash, the quote character and the
common control characters.  (Exotic control characters are kept verbatim; the
resolver under verification never inspects this output.) -/
def pyReprString (s : String) : String :=
  let sq : Char := Char.ofNat 39
  let dq : Char := Char.ofNat 34
  let q : Char := if s.toList.contains sq ∧ ¬ s.toList.contains dq then dq else sq
  let esc : Char → List Char := fun c =>
    if c = '\\' then ['\\', '\\']
    else if c = q then ['\\', q]
    else if c = '\n' then ['\\', 'n']
    else if c = '\r' then ['\\', 'r']
    else if c = '\t' then ['\\', 't']
    else [c]
  String.mk (q :: (s.toList.map esc).flatten ++ [q])

/-- Python `repr` of a JSON value (as deserialised by `json.load`):
`None`/`True`/`False`, decimal integers, quoted strings, and
bracketed/braced recursive forms for lists and dictionaries. -/
def pyRepr : Json → String
  | .null => "None"
  | .bool true => "True"
  | .bool false => "False"
  | .num n => toString n
  | .str s => pyReprString s
  | .arr elems =>
      "[" ++ String.intercalate ", " (elems.attach.map (fun e => pyRepr e.1)) ++ "]"
  | .obj entries =>
      "\x7b" ++ String.intercalate ", "
        (entries.attach.map (fun e => pyReprString e.1.1 ++ ": " ++ pyRepr e.1.2))
      ++ "\x7d"
decreasing_by
  · have := List.sizeOf_lt_of_mem e.2
    simp only [Json.arr.sizeOf_spec]
    omega
  · have h1 := List.sizeOf_lt_of_mem e.2
    have h2 : sizeOf e.1.2 < sizeOf e.1 := by
      obtain ⟨a, b⟩ := e.1
      simp only [Prod.mk.sizeOf_spec]
      omega
    simp only [Json.obj.sizeOf_spec]
    omega

/-- Python `str(...)` applied to a JSON value: strings are returned verbatim,
every other value is rendered by `repr`-style printing (for scalars this is
`None`, `True`, `False`, or the decimal integer, matching `str`). -/
def pyStr : Json → String
  | .str s => s
  | v => pyRepr v

/-- Lines 91-100 / 104-112 of `substitute_resume.py`: return the value when it
is a string, otherwise convert it with `str(...)`. -/
def coerceStr (v : Json) : String :=
  match v with
  | .str s => s
  | v => pyStr v

/-- Python's `key in value` for a string key against a JSON value:
key membership for dicts, substring search for strings, element equality for
lists, and `TypeError` for `None`, booleans and numbers. -/
def pyContains (v : Json) (key : String) : Except PyErr Bool :=
  match v with
  | .obj entries => .ok (entries.any (fun e => e.1 == key))
  | .str s => .ok (containsSubstr key.toList s.toList)
  | .arr elems => .ok (elems.any (fun e => match e with | .str t => t == key | _ => false))
  | .null => .error .typeError
  | .bool _ => .error .typeError
  | .num _ => .error .typeError

/-- Python's `value[key]` for a string key: dictionary lookup for dicts
(`KeyError` when absent), `TypeError` for every other JSON value (string and
list indices must be integers; `None` and scalars are not subscriptable). -/
def pySubscript (v : Json) (key : String) : Except PyErr Json :=
  match v with
  | .obj entries =>
      match entries.lookup key with
      | some x => .ok x
      | none => .error .keyError
  | _ => .error .typeError

/-- Lines 89-100 of `substitute_resume.py`: scan `tags` in order; on the first
tag contained in the placeholder's entry, return its (string-coerced) value.
Returns `none` when no tag matches; propagates any Python error raised by
`in` or subscripting. -/
def scanTags (placeholder_config : Json) : List String → Except PyErr (Option String)
  | [] => .ok none
  | tag :: rest =>
      match pyContains placeholder_config tag with
      | .error e => .error e
      | .ok true =>
          match pySubscript placeholder_config tag with
          | .error e => .error e
          | .ok value => .ok (some (coerceStr value))
      | .ok false => scanTags placeholder_config rest

/-- Lines 103-115 of `substitute_resume.py`: fall back to the `"default"`
entry when present, else return the literal placeholder marker. -/
def resolveDefault (placeholder_config : Json) (placeholder_id : String) :
    Except PyErr String :=
  match pyContains placeholder_config "default" with
  | .error e => .error e
  | .ok true =>
      match pySubscript placeholder_config "default" with
      | .error e => .error e
      | .ok value => .ok (coerceStr value)
  | .ok false => .ok ("<" ++ placeholder_id ++ ">")

/-- `ResumeSubstituter._get_value_for_placeholder` (lines 61-115).  The
configuration is the top-level JSON object, modelled as an association list.
Returns the substitution value, or the Python error the method would raise. -/
def getValueForPlaceholder (config : List (String × Json)) (placeholder_id : String)
    (tags : List String) : Except PyErr String :=
  match config.lookup placeholder_id with
  | none => .ok ("<" ++ placeholder_id ++ ">")
  | some .null => .ok ("<" ++ placeholder_id ++ ">")
  | some placeholder_config =>
      match scanTags placeholder_config tags with
      | .error e => .error e
      | .ok (some s) => .ok s
      | .ok none => resolveDefault placeholder_config placeholder_id

example : getValueForPlaceholder [("1", Json.num 7)] "1" [] = .error .typeError := rfl
example : getValueForPlaceholder [("1", Json.null)] "1" ["x"] = .ok "<1>" := rfl
example : getValueForPlaceholder [] "1" [] = .ok "<1>" := rfl
example : getValueForPlaceholder [("1", Json.obj [("a", .str "A"), ("default", .str "D")])]
    "1" ["b", "a"] = .ok "A" := rfl
example : getValueForPlaceholder [("1", Json.obj [("a", .str "A"), ("default", .str "D")])]
    "1" ["z"] = .ok "D" := rfl
example : getValueForPlaceholder [("1", Json.str "has default inside")] "1" []
    = .error .typeError := rfl
example : getValueForPlaceholder [("1", Json.str "plain")] "1" [] = .ok "<1>" := rfl

/-- Membership in the regex character class `[a-zA-Z0-9_]` used by the
placeholder pattern `<([a-zA-Z0-9_][a-zA-Z0-9_]*)>` (line 288). -/
def isIdentChar (c : Char) : Bool :=
  ('a' ≤ c && c ≤ 'z') || ('A' ≤ c && c ≤ 'Z') || ('0' ≤ c && c ≤ '9') || c = '_'

/-- The literal pattern `f"<{placeholder_id}>"` (line 307). -/
def placeholderPat (id : List Char) : List Char :=
  '<' :: id ++ ['>']

/-- Fuelled worker for `findall`.  Scans left to right; at each `<` it takes
the maximal run of identifier characters; the run matches when it is nonempty
and immediately followed by `>`, in which case scanning resumes after the `>`
(non-overlapping matches); otherwise scanning resumes one character later,
exactly as `re.findall` does.  The fuel only bounds recursion depth; it is
never exhausted when initialised to the text length. -/
def findallF : Nat → List Char → List (List Char)
  | _, [] => []
  | 0, _ => []
  | fuel + 1, c :: rest =>
      if c = '<' ∧ ¬ (rest.takeWhile isIdentChar).isEmpty
          ∧ (rest.dropWhile isIdentChar).head? = some '>' then
        rest.takeWhile isIdentChar :: findallF fuel (rest.dropWhile isIdentChar).tail
      else findallF fuel rest

/-- `re.findall(r"<([a-zA-Z0-9_][a-zA-Z0-9_]*)>", content)` (line 288):
the list of captured identifiers of all non-overlapping matches, left to
right, with multiplicity. -/
def findall (s : List Char) : List (List Char) :=
  findallF s.length s

/-- Fuelled worker for `countOccur`. -/
def countOccurF (pat : List Char) : Nat → List Char → Nat
  | _, [] => 0
  | 0, _ => 0
  | fuel + 1, c :: rest =>
      if pat.isPrefixOf (c :: rest) then
        countOccurF pat fuel (rest.drop (pat.length - 1)) + 1
      else countOccurF pat fuel rest

/-- `len(re.findall(re.escape(pattern), content))` (line 310): the number of
non-overlapping occurrences of the literal `pat`, counted left to right. -/
def countOccur (pat : List Char) (s : List Char) : Nat :=
  countOccurF pat s.length s

/-- Fuelled worker for `pyReplace`. -/
def pyReplaceF (pat v : List Char) : Nat → List Char → List Char
  | _, [] => []
  | 0, s => s
  | fuel + 1, c :: rest =>
      if pat.isPrefixOf (c :: rest) then
        v ++ pyReplaceF pat v fuel (rest.drop (pat.length - 1))
      else c :: pyReplaceF pat v fuel rest

/-- Python's `content.replace(pattern, value)` (line 311) for a nonempty
pattern: replace the non-overlapping occurrences of `pat` left to right.
(The code only ever calls it with the nonempty pattern `"<" + id + ">"`.) -/
def pyReplace (pat v : List Char) (s : List Char) : List Char :=
  pyReplaceF pat v s.length s

/-- The substitution loop of `substitute_file` (lines 304-315): for each
identifier of `order` (the iteration order of `set(placeholders)`), resolve
its value, count the occurrences of `<id>` in the current content, replace
them, and accumulate the count and the resolved pairs. -/
def substituteRun (resolve : List Char → List Char) :
    List (List Char) → List Char → List Char × Nat × List (List Char × List Char)
  | [], content => (content, 0, [])
  | id :: rest, content =>
      let value := resolve id
      let occ := countOccur (placeholderPat id) content
      let r := substituteRun resolve rest (pyReplace (placeholderPat id) value content)
      (r.1, occ + r.2.1, (id, value) :: r.2.2)

/-- The pure core of `ResumeSubstituter.substitute_file` (lines 287-315):
find all placeholders; when none are found the content is returned unchanged
with no substitutions and nothing resolved; otherwise run the substitution
loop over the distinct identifiers in iteration order `order`.  Returns the
final text, the reported substitution count, and the resolved
identifier/value pairs. -/
def substitute_file (resolve : List Char → List Char) (order : List (List Char))
    (content : List Char) : List Char × Nat × List (List Char × List Char) :=
  if findall content = [] then (content, 0, [])
  else substituteRun resolve order content

example : findall "Hello <1>, <name_2> and <1>!".toList = [['1'], "name_2".toList, ['1']] := rfl
example : findall "a <> b <foo bar> c <a-b> <<x>".toList = [['x']] := rfl
example : countOccur "<1>".toList "<1> and <1>".toList = 2 := rfl
example : pyReplace "<1>".toList "X".toList "<1> and <1>".toList = "X and X".toList := rfl
example :
    substitute_file (fun id => if id = ['1'] then "X".toList else "Y".toList)
      [['1']] "<1> and <1> again".toList
    = ("X and X again".toList, 2, [(['1'], "X".toList)]) := rfl

theorem findallF_congr (f₁ : Nat) : ∀ (f₂ : Nat) (s : List Char),
    s.length ≤ f₁ → s.length ≤ f₂ → findallF f₁ s = findallF f₂ s := by
  induction f₁ with
  | zero =>
    intro f₂ s h₁ _
    have hs : s = [] := List.length_eq_zero.mp (Nat.le_zero.mp h₁)
    subst hs
    cases f₂ <;> rfl
  | succ f₁ ih =>
    intro f₂ s h₁ h₂
    cases s with
    | nil => cases f₂ <;> rfl
    | cons c rest =>
      cases f₂ with
      | zero => simp at h₂
      | succ f₂' =>
        simp only [List.length_cons, Nat.succ_le_succ_iff] at h₁ h₂
        simp only [findallF]
        split
        · have hlen : ((rest.dropWhile isIdentChar).tail).length ≤ rest.length := by
            have hd := (List.dropWhile_sublist (l := rest) isIdentChar).length_le
            have ht := List.length_tail (rest.dropWhile isIdentChar)
            omega
          rw [ih f₂' _ (le_trans hlen h₁) (le_trans hlen h₂)]
        · exact ih f₂' rest h₁ h₂

theorem findall_nil : findall [] = [] := rfl

theorem findall_cons (c : Char) (rest : List Char) :
    findall (c :: rest) =
      if c = '<' ∧ ¬ (rest.takeWhile isIdentChar).isEmpty
          ∧ (rest.dropWhile isIdentChar).head? = some '>' then
        rest.takeWhile isIdentChar :: findall (rest.dropWhile isIdentChar).tail
      else findall rest := by
  show findallF (rest.length + 1) (c :: rest) = _
  simp only [findallF]
  split
  · have hlen : ((rest.dropWhile isIdentChar).tail).length ≤ rest.length := by
      have hd := (List.dropWhile_sublist (l := rest) isIdentChar).length_le
      have ht := List.length_tail (rest.dropWhile isIdentChar)
      omega
    rw [findallF_congr rest.length _ _ hlen le_rfl]
    rfl
  · rfl

theorem countOccurF_congr (pat : List Char) (f₁ : Nat) : ∀ (f₂ : Nat) (s : List Char),
    s.length ≤ f₁ → s.length ≤ f₂ → countOccurF pat f₁ s = countOccurF pat f₂ s := by
  induction f₁ with
  | zero =>
    intro f₂ s h₁ _
    have hs : s = [] := List.length_eq_zero.mp (Nat.le_zero.mp h₁)
    subst hs
    cases f₂ <;> rfl
  | succ f₁ ih =>
    intro f₂ s h₁ h₂
    cases s with
    | nil => cases f₂ <;> rfl
    | cons c rest =>
      cases f₂ with
      | zero => simp at h₂
      | succ f₂' =>
        simp only [List.length_cons, Nat.succ_le_succ_iff] at h₁ h₂
        simp only [countOccurF]
        split
        · have hlen : (rest.drop (pat.length - 1)).length ≤ rest.length := by
            rw [List.length_drop]; omega
          rw [ih f₂' _ (le_trans hlen h₁) (le_trans hlen h₂)]
        · exact ih f₂' rest h₁ h₂

theorem countOccur_nil (pat : List Char) : countOccur pat [] = 0 := rfl

theorem countOccur_cons (pat : List Char) (c : Char) (rest : List Char) :
    countOccur pat (c :: rest) =
      if pat.isPrefixOf (c :: rest) then
        countOccur pat (rest.drop (pat.length - 1)) + 1
      else countOccur pat rest := by
  show countOccurF pat (rest.length + 1) (c :: rest) = _
  simp only [countOccurF]
  split
  · have hlen : (rest.drop (pat.length - 1)).length ≤ rest.length := by
      rw [List.length_drop]; omega
    rw [countOccurF_congr pat rest.length _ _ hlen le_rfl]
    rfl
  · rfl

theorem pyReplaceF_congr (pat v : List Char) (f₁ : Nat) : ∀ (f₂ : Nat) (s : List Char),
    s.length ≤ f₁ → s.length ≤ f₂ → pyReplaceF pat v f₁ s = pyReplaceF pat v f₂ s := by
  induction f₁ with
  | zero =>
    intro f₂ s h₁ _
    have hs : s = [] := List.length_eq_zero.mp (Nat.le_zero.mp h₁)
    subst hs
    cases f₂ <;> rfl
  | succ f₁ ih =>
    intro f₂ s h₁ h₂
    cases s with
    | nil => cases f₂ <;> rfl
    | cons c rest =>
      cases f₂ with
      | zero => simp at h₂
      | succ f₂' =>
        simp only [List.length_cons, Nat.succ_le_succ_iff] at h₁ h₂
        simp only [pyReplaceF]
        split
        · have hlen : (rest.drop (pat.length - 1)).length ≤ rest.length := by
            rw [List.length_drop]; omega
          rw [ih f₂' _ (le_trans hlen h₁) (le_trans hlen h₂)]
        · rw [ih f₂' rest h₁ h₂]

theorem pyReplace_nil (pat v : List Char) : pyReplace pat v [] = [] := rfl

theorem pyReplace_cons (pat v : List Char) (c : Char) (rest : List Char) :
    pyReplace pat v (c :: rest) =
      if pat.isPrefixOf (c :: rest) then
        v ++ pyReplace pat v (rest.drop (pat.length - 1))
      else c :: pyReplace pat v rest := by
  show pyReplaceF pat v (rest.length + 1) (c :: rest) = _
  simp only [pyReplaceF]
  split
  · have hlen : (rest.drop (pat.length - 1)).length ≤ rest.length := by
      rw [List.length_drop]; omega
    rw [pyReplaceF_congr pat v rest.length _ _ hlen le_rfl]
    rfl
  · rfl

/-- Well-formed placeholder identifier: nonempty and made of `[a-zA-Z0-9_]`
characters only — exactly the identifiers the regex on line 288 can capture. -/
def idWfB (id : List Char) : Bool :=
  !id.isEmpty && id.all isIdentChar

theorem identChar_ne_lt {c : Char} (h : isIdentChar c = true) : ¬ c = '<' := by
  intro he
  subst he
  exact absurd h (by decide)

theorem identChar_ne_gt {c : Char} (h : isIdentChar c = true) : ¬ c = '>' := by
  intro he
  subst he
  exact absurd h (by decide)

theorem placeholderPat_length (id : List Char) :
    (placeholderPat id).length = id.length + 2 := by
  simp [placeholderPat]

/-- Characters at positions 1 and beyond of a placeholder pattern are
identifier characters or `>`, never `<`. -/
theorem placeholderPat_getElem_ne_lt (id : List Char) (hid : id.all isIdentChar = true)
    (i : Nat) (hi : 1 ≤ i) (h : i < (placeholderPat id).length) :
    ¬ (placeholderPat id)[i] = '<' := by
  obtain ⟨i', rfl⟩ : ∃ i', i = i' + 1 := ⟨i - 1, by omega⟩
  have h' : i' < (id ++ ['>']).length := by
    simpa [placeholderPat] using h
  have he : (placeholderPat id)[i' + 1] = (id ++ ['>'])[i'] := by
    simp [placeholderPat]
  rw [he]
  have hmem : (id ++ ['>'])[i'] ∈ id ++ ['>'] := List.getElem_mem h'
  rcases List.mem_append.mp hmem with ha | hb
  · exact identChar_ne_lt (List.all_eq_true.mp hid _ ha)
  · simp only [List.mem_singleton] at hb
    rw [hb]
    decide

/-- A pattern starting with `<` never matches at a character that is not `<`;
hence scanning skips over a `<`-free chunk. -/
theorem pyReplace_chunk (p v : List Char) (s r : List Char)
    (hs : ∀ c ∈ s, ¬ c = '<') :
    pyReplace ('<' :: p) v (s ++ r) = s ++ pyReplace ('<' :: p) v r := by
  induction s with
  | nil => rfl
  | cons c s ih =>
    have hc : ¬ c = '<' := hs c (List.mem_cons_self c s)
    rw [List.cons_append, pyReplace_cons]
    have hpre : ('<' :: p).isPrefixOf (c :: (s ++ r)) = false := by
      simp only [List.isPrefixOf, Bool.and_eq_false_iff]
      left
      simpa [beq_iff_eq] using fun h => hc h.symm
    rw [hpre]
    simp only [Bool.false_eq_true, if_false, List.cons_append]
    rw [ih (fun c hc' => hs c (List.mem_cons_of_mem _ hc'))]

theorem countOccur_chunk (p : List Char) (s r : List Char)
    (hs : ∀ c ∈ s, ¬ c = '<') :
    countOccur ('<' :: p) (s ++ r) = countOccur ('<' :: p) r := by
  induction s with
  | nil => rfl
  | cons c s ih =>
    have hc : ¬ c = '<' := hs c (List.mem_cons_self c s)
    rw [List.cons_append, countOccur_cons]
    have hpre : ('<' :: p).isPrefixOf (c :: (s ++ r)) = false := by
      simp only [List.isPrefixOf, Bool.and_eq_false_iff]
      left
      simpa [beq_iff_eq] using fun h => hc h.symm
    rw [hpre]
    simp only [Bool.false_eq_true, if_false]
    exact ih (fun c hc' => hs c (List.mem_cons_of_mem _ hc'))

theorem findall_chunk (s r : List Char) (hs : ∀ c ∈ s, ¬ c = '<') :
    findall (s ++ r) = findall r := by
  induction s with
  | nil => rfl
  | cons c s ih =>
    have hc : ¬ c = '<' := hs c (List.mem_cons_self c s)
    rw [List.cons_append, findall_cons, if_neg (fun h => hc h.1)]
    exact ih (fun c hc' => hs c (List.mem_cons_of_mem _ hc'))

/-- An identifier-plus-`>` pattern cannot match against an identifier run that
is terminated inside the text by a non-identifier character other than a
matching `>`. -/
theorem identRun_no_match (j : List Char) : ∀ (k : List Char) (d : Char) (t : List Char),
    (∀ c ∈ j, isIdentChar c = true) → (∀ c ∈ k, isIdentChar c = true) →
    ¬ isIdentChar d = true → (¬ d = '>' ∨ (k = [] ∧ ¬ j = [])) →
    (j ++ ['>']).isPrefixOf (k ++ d :: t) = false := by
  induction j with
  | nil =>
    intro k d t _ hk hd hcase
    have hd' : ¬ d = '>' := by
      rcases hcase with h | ⟨_, hj⟩
      · exact h
      · exact absurd rfl hj
    cases k with
    | nil =>
      simp only [List.nil_append, List.isPrefixOf, Bool.and_eq_false_iff]
      left
      simpa [beq_iff_eq] using fun h => hd' h.symm
    | cons b k' =>
      have hb : isIdentChar b = true := hk b (List.mem_cons_self b k')
      simp only [List.nil_append, List.cons_append, List.isPrefixOf, Bool.and_eq_false_iff]
      left
      simpa [beq_iff_eq] using fun h => identChar_ne_gt hb h.symm
  | cons a j' ih =>
    intro k d t hj hk hd hcase
    have ha : isIdentChar a = true := hj a (List.mem_cons_self a j')
    cases k with
    | nil =>
      simp only [List.nil_append, List.cons_append, List.isPrefixOf, Bool.and_eq_false_iff]
      left
      exact beq_eq_false_iff_ne.mpr (fun h => hd (h ▸ ha))
    | cons b k' =>
      simp only [List.cons_append, List.isPrefixOf, Bool.and_eq_false_iff]
      by_cases hab : a = b
      · right
        have hd' : ¬ d = '>' := by
          rcases hcase with h | ⟨hk0, _⟩
          · exact h
          · exact absurd hk0 (by simp)
        exact ih k' d t (fun c hc => hj c (List.mem_cons_of_mem _ hc))
          (fun c hc => hk c (List.mem_cons_of_mem _ hc)) hd (Or.inl hd')
      · left
        exact beq_eq_false_iff_ne.mpr hab

/-- A placeholder pattern matches at the start of another placeholder span
(followed by anything) exactly when the identifiers coincide. -/
theorem pat_prefix_pat (j i r : List Char) (hj : idWfB j = true) (hi : idWfB i = true) :
    (placeholderPat j).isPrefixOf (placeholderPat i ++ r) = true ↔ j = i := by
  have hj' : ∀ c ∈ j, isIdentChar c = true :=
    fun c hc => List.all_eq_true.mp (Bool.and_elim_right hj) c hc
  have hi' : ∀ c ∈ i, isIdentChar c = true :=
    fun c hc => List.all_eq_true.mp (Bool.and_elim_right hi) c hc
  simp only [placeholderPat, List.cons_append, List.isPrefixOf, Bool.and_eq_true,
    beq_self_eq_true, true_and]
  clear hj hi
  induction j generalizing i with
  | nil =>
    cases i with
    | nil => simp
    | cons b i' =>
      have hb : isIdentChar b = true := hi' b (List.mem_cons_self b i')
      simp only [List.nil_append, List.cons_append, List.isPrefixOf, Bool.and_eq_true,
        beq_iff_eq]
      constructor
      · intro h
        exact absurd h.1.symm (identChar_ne_gt hb)
      · intro h
        exact absurd h (by simp)
  | cons a j' ih =>
    have ha : isIdentChar a = true := hj' a (List.mem_cons_self a j')
    cases i with
    | nil =>
      simp only [List.cons_append, List.nil_append, List.isPrefixOf, Bool.and_eq_true,
        beq_iff_eq]
      constructor
      · intro h
        exact absurd h.1 (identChar_ne_gt ha)
      · intro h
        exact absurd h (by simp)
    | cons b i' =>
      simp only [List.cons_append, List.isPrefixOf, Bool.and_eq_true, beq_iff_eq]
      constructor
      · intro ⟨hab, h⟩
        have := (ih i' (fun c hc => hj' c (List.mem_cons_of_mem _ hc))
          (fun c hc => hi' c (List.mem_cons_of_mem _ hc))).mp h
        rw [hab, this]
      · intro h
        injection h with h1 h2
        exact ⟨h1, (ih i' (fun c hc => hj' c (List.mem_cons_of_mem _ hc))
          (fun c hc => hi' c (List.mem_cons_of_mem _ hc))).mpr h2⟩

/-- A malformed `<`-span: text that starts with `<`, contains no further `<`,
and in which the identifier run that follows the `<` is terminated before the
end of the span by a character that cannot complete a placeholder match
(either the run is empty, or the terminator is not `>`).  Examples:
`<>`, `<foo bar>`, `<a-b>`, `<a--`. -/
def isBadSpan (m : List Char) : Bool :=
  match m with
  | c :: u =>
      c == '<' && !u.contains '<' && !(u.dropWhile isIdentChar).isEmpty &&
        ((u.takeWhile isIdentChar).isEmpty ||
          !((u.dropWhile isIdentChar).head? == some '>'))
  | [] => false

example : isBadSpan "<>".toList = true := rfl
example : isBadSpan "<foo bar>".toList = true := rfl
example : isBadSpan "<a-b>".toList = true := rfl
example : isBadSpan "<ab>".toList = false := rfl
example : isBadSpan "<ab".toList = false := rfl

theorem dropWhile_head_not_sat (p : Char → Bool) : ∀ (l : List Char) (d : Char) (t : List Char),
    l.dropWhile p = d :: t → p d = false := by
  intro l
  induction l with
  | nil =>
    intro d t h
    simp at h
  | cons c l ih =>
    intro d t h
    rw [List.dropWhile_cons] at h
    by_cases hc : p c = true
    · rw [if_pos hc] at h
      exact ih d t h
    · rw [if_neg hc] at h
      injection h with h1 _
      rw [← h1]
      exact Bool.eq_false_iff.mpr hc

/-- A placeholder pattern never matches at the opening `<` of a malformed
span, whatever text follows the span. -/
theorem pat_not_prefix_badSpan (j m r : List Char) (hj : idWfB j = true)
    (hm : isBadSpan m = true) :
    (placeholderPat j).isPrefixOf (m ++ r) = false := by
  obtain ⟨u, rfl⟩ : ∃ u, m = '<' :: u := by
    cases m with
    | nil => simp [isBadSpan] at hm
    | cons c u =>
      simp only [isBadSpan, Bool.and_eq_true, beq_iff_eq] at hm
      exact ⟨u, by rw [hm.1.1.1]⟩
  simp only [isBadSpan, Bool.and_eq_true, Bool.or_eq_true, Bool.not_eq_true',
    beq_self_eq_true, true_and] at hm
  obtain ⟨⟨hnolt, hdne⟩, hterm⟩ := hm
  obtain ⟨d, t, hdt⟩ : ∃ d t, u.dropWhile isIdentChar = d :: t := by
    cases hu : u.dropWhile isIdentChar with
    | nil => rw [hu] at hdne; simp at hdne
    | cons d t => exact ⟨d, t, rfl⟩
  have hu_split : u = u.takeWhile isIdentChar ++ d :: t := by
    conv_lhs => rw [← List.takeWhile_append_dropWhile (p := isIdentChar) (l := u)]
    rw [hdt]
  have hd_not_ident : ¬ isIdentChar d = true := by
    have := dropWhile_head_not_sat isIdentChar u d t hdt
    simp [this]
  have hk_ident : ∀ c ∈ u.takeWhile isIdentChar, isIdentChar c = true :=
    fun c hc => List.mem_takeWhile_imp hc
  have hj_ident : ∀ c ∈ j, isIdentChar c = true :=
    fun c hc => List.all_eq_true.mp (Bool.and_elim_right hj) c hc
  have hj_ne : ¬ j = [] := by
    intro h
    rw [h] at hj
    simp [idWfB] at hj
  have hcase : ¬ d = '>' ∨ (u.takeWhile isIdentChar = [] ∧ ¬ j = []) := by
    rcases hterm with h | h
    · exact Or.inr ⟨List.isEmpty_iff.mp h, hj_ne⟩
    · left
      intro hd
      rw [hdt, hd] at h
      simp at h
  have hfin := identRun_no_match j (u.takeWhile isIdentChar) d (t ++ r)
    hj_ident hk_ident hd_not_ident hcase
  simp only [placeholderPat, List.cons_append, List.isPrefixOf, beq_self_eq_true,
    Bool.true_and]
  rw [hu_split]
  show (j ++ ['>']).isPrefixOf ((u.takeWhile isIdentChar ++ d :: t) ++ r) = false
  rw [List.append_assoc, List.cons_append]
  exact hfin

/-- If a placeholder pattern matches at the start of `X ++ Z` where `X` is
nonempty and `Z` begins with `<`, the whole match lies inside `X`: pattern
characters past position 0 are never `<`, so the match cannot reach `Z`. -/
theorem pat_prefix_fits (j X Z : List Char) (hj : idWfB j = true) (hX : ¬ X = [])
    (hZ : Z.head? = some '<')
    (hpre : placeholderPat j <+: (X ++ Z)) :
    (placeholderPat j).length ≤ X.length := by
  by_contra hlen
  push_neg at hlen
  have hXlt : X.length < (X ++ Z).length := by
    have : 0 < Z.length := by
      cases Z with
      | nil => simp at hZ
      | cons _ _ => simp
    simp only [List.length_append]
    omega
  have hgoal := hpre.getElem (n := X.length) (by omega)
  have hZ0 : (X ++ Z)[X.length] = '<' := by
    cases Z with
    | nil => simp at hZ
    | cons c Z' =>
      rw [List.getElem_append_right (le_refl X.length)]
      simp only [Nat.sub_self, List.getElem_cons_zero]
      simpa using hZ
  have hX1 : 1 ≤ X.length := by
    cases X with
    | nil => exact absurd rfl hX
    | cons _ _ => simp
  exact placeholderPat_getElem_ne_lt j (Bool.and_elim_right hj) X.length hX1 (by omega)
    (hgoal.trans hZ0)

theorem isPrefixOf_iff_isPrefix {l₁ l₂ : List Char} :
    l₁.isPrefixOf l₂ = true ↔ l₁ <+: l₂ :=
  List.isPrefixOf_iff_prefix

theorem prefix_take_of_le {p X Z : List Char} (hpre : p <+: X ++ Z)
    (hle : p.length ≤ X.length) : p <+: X := by
  have htake : List.take p.length (X ++ Z) = List.take p.length X := by
    rw [List.take_append_eq_append_take, Nat.sub_eq_zero_of_le hle, List.take_zero,
      List.append_nil]
  rw [List.prefix_iff_eq_take, ← htake]
  exact List.prefix_iff_eq_take.mp hpre

theorem drop_append_of_le {X Z : List Char} {n : Nat} (h : n ≤ X.length) :
    (X ++ Z).drop n = X.drop n ++ Z := by
  rw [List.drop_append_eq_append_drop, Nat.sub_eq_zero_of_le h, List.drop_zero]

theorem badSpan_shape (m : List Char) (hm : isBadSpan m = true) :
    ∃ u, m = '<' :: u ∧ u.contains '<' = false := by
  cases m with
  | nil => simp [isBadSpan] at hm
  | cons c u =>
    simp only [isBadSpan, Bool.and_eq_true, beq_iff_eq, Bool.not_eq_true'] at hm
    exact ⟨u, by rw [hm.1.1.1], hm.1.1.2⟩

theorem not_mem_of_contains_false {u : List Char} (h : u.contains '<' = false) :
    ∀ c ∈ u, ¬ c = '<' := by
  intro c hc he
  subst he
  simp only [List.contains, List.elem_eq_true_of_mem hc] at h
  exact absurd h (by simp)

/-- Scanning a malformed span at the head: the `<` does not match, the rest of
the span has no `<`, so counting continues after the span. -/
theorem countOccur_badSpan_head (j m Y : List Char) (hj : idWfB j = true)
    (hm : isBadSpan m = true) :
    countOccur (placeholderPat j) (m ++ Y) = countOccur (placeholderPat j) Y := by
  obtain ⟨u, rfl, hnolt⟩ := badSpan_shape m hm
  rw [List.cons_append, countOccur_cons]
  have hpre := pat_not_prefix_badSpan j ('<' :: u) Y hj hm
  rw [List.cons_append] at hpre
  rw [hpre]
  simp only [Bool.false_eq_true, if_false]
  show countOccur ('<' :: (j ++ ['>'])) (u ++ Y) = countOccur ('<' :: (j ++ ['>'])) Y
  exact countOccur_chunk (j ++ ['>']) u Y (not_mem_of_contains_false hnolt)

theorem pyReplace_badSpan_head (j m v Y : List Char) (hj : idWfB j = true)
    (hm : isBadSpan m = true) :
    pyReplace (placeholderPat j) v (m ++ Y) = m ++ pyReplace (placeholderPat j) v Y := by
  obtain ⟨u, rfl, hnolt⟩ := badSpan_shape m hm
  rw [List.cons_append, pyReplace_cons]
  have hpre := pat_not_prefix_badSpan j ('<' :: u) Y hj hm
  rw [List.cons_append] at hpre
  rw [hpre]
  simp only [Bool.false_eq_true, if_false, List.cons_append, List.cons.injEq, true_and]
  show pyReplace ('<' :: (j ++ ['>'])) v (u ++ Y) = u ++ pyReplace ('<' :: (j ++ ['>'])) v Y
  exact pyReplace_chunk (j ++ ['>']) v u Y (not_mem_of_contains_false hnolt)

/-- Occurrence counting never crosses a malformed span: the count over
`X ++ m ++ Y` splits into the counts over `X` and over `Y`. -/
theorem countOccur_badSpan_split (j m : List Char) (hj : idWfB j = true)
    (hm : isBadSpan m = true) : ∀ (n : Nat) (X Y : List Char), X.length ≤ n →
    countOccur (placeholderPat j) (X ++ (m ++ Y))
      = countOccur (placeholderPat j) X + countOccur (placeholderPat j) Y := by
  intro n
  induction n with
  | zero =>
    intro X Y hX
    have hX0 : X = [] := List.length_eq_zero.mp (Nat.le_zero.mp hX)
    subst hX0
    simpa [countOccur_nil] using countOccur_badSpan_head j m Y hj hm
  | succ n ih =>
    intro X Y hX
    cases X with
    | nil => simpa [countOccur_nil] using countOccur_badSpan_head j m Y hj hm
    | cons c X' =>
      have hhead : (m ++ Y).head? = some '<' := by
        obtain ⟨u, rfl, _⟩ := badSpan_shape m hm
        simp
      rw [List.cons_append, countOccur_cons]
      by_cases hpre : (placeholderPat j).isPrefixOf (c :: (X' ++ (m ++ Y))) = true
      · have hpre' : placeholderPat j <+: ((c :: X') ++ (m ++ Y)) := by
          rw [List.cons_append]
          exact isPrefixOf_iff_isPrefix.mp hpre
        have hfit : (placeholderPat j).length ≤ (c :: X').length :=
          pat_prefix_fits j (c :: X') (m ++ Y) hj (by simp) hhead hpre'
        have hsmall : (placeholderPat j).isPrefixOf (c :: X') = true :=
          isPrefixOf_iff_isPrefix.mpr (prefix_take_of_le hpre' hfit)
        rw [hpre]
        simp only [if_true]
        have hL : (placeholderPat j).length - 1 ≤ X'.length := by
          simp only [List.length_cons] at hfit
          omega
        rw [drop_append_of_le hL]
        have hlen' : (X'.drop ((placeholderPat j).length - 1)).length ≤ n := by
          rw [List.length_drop]
          simp only [List.length_cons, Nat.succ_le_succ_iff] at hX
          omega
        rw [ih _ Y hlen']
        rw [countOccur_cons, hsmall]
        simp only [if_true]
        omega
      · have hsmall : (placeholderPat j).isPrefixOf (c :: X') = false := by
          rw [Bool.eq_false_iff]
          intro hs
          apply hpre
          have : placeholderPat j <+: ((c :: X') ++ (m ++ Y)) :=
            (isPrefixOf_iff_isPrefix.mp hs).trans (List.prefix_append _ _)
          rw [List.cons_append] at this
          exact isPrefixOf_iff_isPrefix.mpr this
        rw [Bool.eq_false_iff.mpr hpre]
        simp only [Bool.false_eq_true, if_false]
        rw [ih X' Y (by simpa [Nat.succ_le_succ_iff] using hX)]
        rw [countOccur_cons, hsmall]
        simp

/-- Replacement never crosses a malformed span: replacing over `X ++ m ++ Y`
leaves `m` verbatim and acts independently on `X` and on `Y`. -/
theorem pyReplace_badSpan_split (j m v : List Char) (hj : idWfB j = true)
    (hm : isBadSpan m = true) : ∀ (n : Nat) (X Y : List Char), X.length ≤ n →
    pyReplace (placeholderPat j) v (X ++ (m ++ Y))
      = pyReplace (placeholderPat j) v X ++ (m ++ pyReplace (placeholderPat j) v Y) := by
  intro n
  induction n with
  | zero =>
    intro X Y hX
    have hX0 : X = [] := List.length_eq_zero.mp (Nat.le_zero.mp hX)
    subst hX0
    simpa [pyReplace_nil] using pyReplace_badSpan_head j m v Y hj hm
  | succ n ih =>
    intro X Y hX
    cases X with
    | nil => simpa [pyReplace_nil] using pyReplace_badSpan_head j m v Y hj hm
    | cons c X' =>
      have hhead : (m ++ Y).head? = some '<' := by
        obtain ⟨u, rfl, _⟩ := badSpan_shape m hm
        simp
      rw [List.cons_append, pyReplace_cons]
      by_cases hpre : (placeholderPat j).isPrefixOf (c :: (X' ++ (m ++ Y))) = true
      · have hpre' : placeholderPat j <+: ((c :: X') ++ (m ++ Y)) := by
          rw [List.cons_append]
          exact isPrefixOf_iff_isPrefix.mp hpre
        have hfit : (placeholderPat j).length ≤ (c :: X').length :=
          pat_prefix_fits j (c :: X') (m ++ Y) hj (by simp) hhead hpre'
        have hsmall : (placeholderPat j).isPrefixOf (c :: X') = true :=
          isPrefixOf_iff_isPrefix.mpr (prefix_take_of_le hpre' hfit)
        rw [hpre]
        simp only [if_true]
        have hL : (placeholderPat j).length - 1 ≤ X'.length := by
          simp only [List.length_cons] at hfit
          omega
        rw [drop_append_of_le hL]
        have hlen' : (X'.drop ((placeholderPat j).length - 1)).length ≤ n := by
          rw [List.length_drop]
          simp only [List.length_cons, Nat.succ_le_succ_iff] at hX
          omega
        rw [ih _ Y hlen']
        rw [pyReplace_cons, hsmall]
        simp
      · have hsmall : (placeholderPat j).isPrefixOf (c :: X') = false := by
          rw [Bool.eq_false_iff]
          intro hs
          apply hpre
          have : placeholderPat j <+: ((c :: X') ++ (m ++ Y)) :=
            (isPrefixOf_iff_isPrefix.mp hs).trans (List.prefix_append _ _)
          rw [List.cons_append] at this
          exact isPrefixOf_iff_isPrefix.mpr this
        rw [Bool.eq_false_iff.mpr hpre]
        simp only [Bool.false_eq_true, if_false]
        rw [ih X' Y (by simpa [Nat.succ_le_succ_iff] using hX)]
        rw [pyReplace_cons, hsmall]
        simp

/-- The whole substitution loop never touches a malformed span: it acts
independently on the text before and after the span, and the span itself is
kept verbatim and contributes nothing to the count. -/
theorem substituteRun_badSpan (resolve : List Char → List Char) (m : List Char)
    (hm : isBadSpan m = true) : ∀ (order : List (List Char)),
    (∀ id ∈ order, idWfB id = true) → ∀ (X Y : List Char),
    substituteRun resolve order (X ++ (m ++ Y))
      = ((substituteRun resolve order X).1 ++ (m ++ (substituteRun resolve order Y).1),
         (substituteRun resolve order X).2.1 + (substituteRun resolve order Y).2.1,
         order.map (fun id => (id, resolve id))) := by
  intro order
  induction order with
  | nil =>
    intro _ X Y
    rfl
  | cons id rest ih =>
    intro hwf X Y
    have hid : idWfB id = true := hwf id (List.mem_cons_self id rest)
    simp only [substituteRun]
    rw [countOccur_badSpan_split id m hid hm X.length X Y le_rfl]
    rw [pyReplace_badSpan_split id m (resolve id) hid hm X.length X Y le_rfl]
    rw [ih (fun i hi => hwf i (List.mem_cons_of_mem _ hi))]
    simp only [List.map_cons, Prod.mk.injEq, true_and]
    exact ⟨by omega, trivial⟩

/-- Template fragments: literal text or a placeholder span `<id>`.  A template
written as a fragment list makes the position of its placeholder spans
explicit. -/
inductive Frag where
  | lit (s : List Char)
  | ph (id : List Char)

/-- Text of one fragment. -/
def renderFrag : Frag → List Char
  | .lit s => s
  | .ph id => placeholderPat id

/-- Text of a fragment list. -/
def render (fs : List Frag) : List Char :=
  (fs.map renderFrag).flatten

/-- Well-formed fragment: literal chunks contain no `<` (every `<` of the
template starts a placeholder span); placeholder identifiers are nonempty
identifier-character runs. -/
def fragWfB : Frag → Bool
  | .lit s => !s.contains '<'
  | .ph id => idWfB id

def fragsWfB (fs : List Frag) : Bool :=
  fs.all fragWfB

/-- The placeholder identifiers of a fragment list, in order, with
multiplicity. -/
def phIds (fs : List Frag) : List (List Char) :=
  fs.filterMap (fun f => match f with | .ph id => some id | .lit _ => none)

theorem takeWhile_ident_run (id : List Char) (t : List Char)
    (hid : ∀ c ∈ id, isIdentChar c = true) :
    (id ++ '>' :: t).takeWhile isIdentChar = id ∧
      (id ++ '>' :: t).dropWhile isIdentChar = '>' :: t := by
  induction id with
  | nil =>
    constructor
    · rw [List.nil_append, List.takeWhile_cons, if_neg (by decide)]
    · rw [List.nil_append, List.dropWhile_cons, if_neg (by decide)]
  | cons a id' ih =>
    have ha : isIdentChar a = true := hid a (List.mem_cons_self a id')
    have ih' := ih (fun c hc => hid c (List.mem_cons_of_mem _ hc))
    constructor
    · rw [List.cons_append, List.takeWhile_cons, if_pos ha, ih'.1]
    · rw [List.cons_append, List.dropWhile_cons, if_pos ha, ih'.2]

theorem render_nil : render [] = [] := rfl

theorem render_cons (f : Frag) (fs : List Frag) :
    render (f :: fs) = renderFrag f ++ render fs := by
  simp [render]

/-- On a well-formed fragment list the placeholder scan finds exactly the
placeholder identifiers, in order. -/
theorem findall_render (fs : List Frag) (hwf : fragsWfB fs = true) :
    findall (render fs) = phIds fs := by
  induction fs with
  | nil => rfl
  | cons f fs' ih =>
    have hf : fragWfB f = true := (List.all_eq_true.mp hwf) f (List.mem_cons_self f fs')
    have hfs' : fragsWfB fs' = true :=
      List.all_eq_true.mpr (fun x hx => List.all_eq_true.mp hwf x (List.mem_cons_of_mem _ hx))
    rw [render_cons]
    cases f with
    | lit s =>
      have hs : ∀ c ∈ s, ¬ c = '<' :=
        not_mem_of_contains_false (by simpa [fragWfB] using hf)
      simp only [renderFrag]
      rw [findall_chunk s (render fs') hs]
      rw [ih hfs']
      simp [phIds, List.filterMap_cons]
    | ph id =>
      have hidwf : idWfB id = true := by simpa [fragWfB] using hf
      have hid : ∀ c ∈ id, isIdentChar c = true :=
        fun c hc => List.all_eq_true.mp (Bool.and_elim_right hidwf) c hc
      have hne : ¬ id = [] := by
        intro h
        subst h
        simp [idWfB] at hidwf
      have hsplit : renderFrag (.ph id) ++ render fs' = '<' :: (id ++ '>' :: render fs') := by
        simp [renderFrag, placeholderPat]
      rw [hsplit, findall_cons]
      obtain ⟨htake, hdrop⟩ := takeWhile_ident_run id (render fs') hid
      rw [if_pos ⟨rfl, by rw [htake]; simpa using hne, by rw [hdrop]; rfl⟩]
      rw [htake, hdrop]
      simp only [List.tail_cons]
      rw [ih hfs']
      simp [phIds, List.filterMap_cons]

theorem fragsWfB_cons {f : Frag} {fs : List Frag} (h : fragsWfB (f :: fs) = true) :
    fragWfB f = true ∧ fragsWfB fs = true := by
  constructor
  · exact List.all_eq_true.mp h f (List.mem_cons_self f fs)
  · exact List.all_eq_true.mpr (fun x hx => List.all_eq_true.mp h x (List.mem_cons_of_mem _ hx))

theorem ph_chunk_no_lt (i : List Char) (hid : ∀ c ∈ i, isIdentChar c = true) :
    ∀ c ∈ i ++ ['>'], ¬ c = '<' := by
  intro c hc
  rcases List.mem_append.mp hc with h | h
  · exact identChar_ne_lt (hid c h)
  · simp only [List.mem_singleton] at h
    subst h
    decide

/-- Occurrences of a placeholder pattern in a rendered well-formed fragment
list are exactly the placeholder fragments with that identifier. -/
theorem countOccur_render (j : List Char) (hj : idWfB j = true) :
    ∀ (fs : List Frag), fragsWfB fs = true →
    countOccur (placeholderPat j) (render fs) = (phIds fs).count j := by
  intro fs
  induction fs with
  | nil => intro _; rfl
  | cons f fs' ih =>
    intro hwf
    obtain ⟨hf, hfs'⟩ := fragsWfB_cons hwf
    rw [render_cons]
    cases f with
    | lit s =>
      have hs : ∀ c ∈ s, ¬ c = '<' :=
        not_mem_of_contains_false (by simpa [fragWfB] using hf)
      simp only [renderFrag]
      show countOccur ('<' :: (j ++ ['>'])) (s ++ render fs') = _
      rw [countOccur_chunk (j ++ ['>']) s (render fs') hs]
      rw [show countOccur ('<' :: (j ++ ['>'])) (render fs')
            = countOccur (placeholderPat j) (render fs') from rfl]
      rw [ih hfs']
      simp [phIds, List.filterMap_cons]
    | ph i =>
      have hiwf : idWfB i = true := by simpa [fragWfB] using hf
      have hii : ∀ c ∈ i, isIdentChar c = true :=
        fun c hc => List.all_eq_true.mp (Bool.and_elim_right hiwf) c hc
      have hsplit : renderFrag (.ph i) ++ render fs' = '<' :: (i ++ '>' :: render fs') := by
        simp [renderFrag, placeholderPat]
      rw [hsplit, countOccur_cons]
      have hiff := pat_prefix_pat j i (render fs') hj hiwf
      rw [show placeholderPat i ++ render fs' = '<' :: (i ++ '>' :: render fs') by
        simp [placeholderPat]] at hiff
      by_cases hij : j = i
      · subst hij
        rw [if_pos (hiff.mpr rfl)]
        have hdrop : (j ++ '>' :: render fs').drop ((placeholderPat j).length - 1)
            = render fs' := by
          rw [placeholderPat_length]
          rw [show j.length + 2 - 1 = j.length + 1 from rfl]
          rw [List.drop_append_eq_append_drop]
          simp
        rw [hdrop, ih hfs']
        simp [phIds, List.filterMap_cons]
      · rw [if_neg (by
          intro hc
          exact hij (hiff.mp hc))]
        show countOccur ('<' :: (j ++ ['>'])) (i ++ '>' :: render fs') = _
        rw [show i ++ '>' :: render fs' = (i ++ ['>']) ++ render fs' by simp]
        rw [countOccur_chunk (j ++ ['>']) (i ++ ['>']) (render fs') (ph_chunk_no_lt i hii)]
        rw [show countOccur ('<' :: (j ++ ['>'])) (render fs')
              = countOccur (placeholderPat j) (render fs') from rfl]
        rw [ih hfs']
        simp only [phIds, List.filterMap_cons]
        rw [List.count_cons_of_ne hij]

/-- One substitution step on fragments: the placeholder fragments with
identifier `j` become the literal replacement value. -/
def replacePh (j v : List Char) : Frag → Frag
  | .lit s => .lit s
  | .ph i => if i = j then .lit v else .ph i

/-- Replacing `<j>` in a rendered well-formed fragment list is exactly the
fragment-wise substitution: literal chunks are untouched, the spans of `j` are
replaced, other spans are untouched. -/
theorem pyReplace_render (j v : List Char) (hj : idWfB j = true) :
    ∀ (fs : List Frag), fragsWfB fs = true →
    pyReplace (placeholderPat j) v (render fs) = render (fs.map (replacePh j v)) := by
  intro fs
  induction fs with
  | nil => intro _; rfl
  | cons f fs' ih =>
    intro hwf
    obtain ⟨hf, hfs'⟩ := fragsWfB_cons hwf
    rw [render_cons]
    cases f with
    | lit s =>
      have hs : ∀ c ∈ s, ¬ c = '<' :=
        not_mem_of_contains_false (by simpa [fragWfB] using hf)
      simp only [renderFrag]
      show pyReplace ('<' :: (j ++ ['>'])) v (s ++ render fs') = _
      rw [pyReplace_chunk (j ++ ['>']) v s (render fs') hs]
      rw [show pyReplace ('<' :: (j ++ ['>'])) v (render fs')
            = pyReplace (placeholderPat j) v (render fs') from rfl]
      rw [ih hfs']
      simp [render, replacePh, renderFrag]
    | ph i =>
      have hiwf : idWfB i = true := by simpa [fragWfB] using hf
      have hii : ∀ c ∈ i, isIdentChar c = true :=
        fun c hc => List.all_eq_true.mp (Bool.and_elim_right hiwf) c hc
      have hsplit : renderFrag (.ph i) ++ render fs' = '<' :: (i ++ '>' :: render fs') := by
        simp [renderFrag, placeholderPat]
      rw [hsplit, pyReplace_cons]
      have hiff := pat_prefix_pat j i (render fs') hj hiwf
      rw [show placeholderPat i ++ render fs' = '<' :: (i ++ '>' :: render fs') by
        simp [placeholderPat]] at hiff
      by_cases hij : j = i
      · subst hij
        rw [if_pos (hiff.mpr rfl)]
        have hdrop : (j ++ '>' :: render fs').drop ((placeholderPat j).length - 1)
            = render fs' := by
          rw [placeholderPat_length]
          rw [show j.length + 2 - 1 = j.length + 1 from rfl]
          rw [List.drop_append_eq_append_drop]
          simp
        rw [hdrop, ih hfs']
        simp [render, replacePh, renderFrag]
      · rw [if_neg (by
          intro hc
          exact hij (hiff.mp hc))]
        show '<' :: pyReplace ('<' :: (j ++ ['>'])) v (i ++ '>' :: render fs') = _
        rw [show i ++ '>' :: render fs' = (i ++ ['>']) ++ render fs' by simp]
        rw [pyReplace_chunk (j ++ ['>']) v (i ++ ['>']) (render fs') (ph_chunk_no_lt i hii)]
        rw [show pyReplace ('<' :: (j ++ ['>'])) v (render fs')
              = pyReplace (placeholderPat j) v (render fs') from rfl]
        rw [ih hfs']
        simp only [List.map_cons, render_cons]
        rw [show replacePh j v (.ph i) = .ph i by
          simp [replacePh]
          intro h
          exact hij h.symm]
        simp [renderFrag, placeholderPat, render]

theorem fragsWfB_map_replacePh (j v : List Char) (hv : v.contains '<' = false) :
    ∀ (fs : List Frag), fragsWfB fs = true →
    fragsWfB (fs.map (replacePh j v)) = true := by
  intro fs hwf
  apply List.all_eq_true.mpr
  intro f hf
  obtain ⟨g, hg, rfl⟩ := List.mem_map.mp hf
  have hgwf : fragWfB g = true := List.all_eq_true.mp hwf g hg
  cases g with
  | lit s => exact hgwf
  | ph i =>
    by_cases hij : i = j
    · simp only [replacePh, if_pos hij, fragWfB]
      simpa using hv
    · simpa only [replacePh, if_neg hij] using hgwf

theorem phIds_map_replacePh (j v : List Char) :
    ∀ (fs : List Frag),
    phIds (fs.map (replacePh j v)) = (phIds fs).filter (fun i => !(i == j)) := by
  intro fs
  induction fs with
  | nil => rfl
  | cons f fs' ih =>
    cases f with
    | lit s =>
      simp only [List.map_cons, phIds, List.filterMap_cons, replacePh]
      exact ih
    | ph i =>
      simp only [phIds] at ih ⊢
      by_cases hij : i = j
      · simp only [List.map_cons, replacePh, if_pos hij, List.filterMap_cons,
          List.filter_cons]
        rw [ih]
        simp [hij]
      · simp only [List.map_cons, replacePh, if_neg hij, List.filterMap_cons,
          List.filter_cons]
        rw [ih]
        simp [hij]

/-- The substitution loop on a rendered well-formed fragment list, for any
iteration order of distinct identifiers whose values contain no `<`:
fragment-wise replacement, with the count of each processed identifier taken
from the original template. -/
theorem substituteRun_render (resolve : List Char → List Char) :
    ∀ (order : List (List Char)) (fs : List Frag), fragsWfB fs = true →
    order.Nodup → (∀ id ∈ order, idWfB id = true) →
    (∀ id ∈ order, (resolve id).contains '<' = false) →
    substituteRun resolve order (render fs)
      = (render (order.foldl (fun acc j => acc.map (replacePh j (resolve j))) fs),
         (order.map (fun j => (phIds fs).count j)).sum,
         order.map (fun j => (j, resolve j))) := by
  intro order
  induction order with
  | nil =>
    intro fs _ _ _ _
    rfl
  | cons j rest ih =>
    intro fs hwf hnd hidwf hvwf
    have hj : idWfB j = true := hidwf j (List.mem_cons_self j rest)
    have hv : (resolve j).contains '<' = false := hvwf j (List.mem_cons_self j rest)
    simp only [substituteRun]
    rw [countOccur_render j hj fs hwf]
    rw [pyReplace_render j (resolve j) hj fs hwf]
    rw [ih (fs.map (replacePh j (resolve j)))
      (fragsWfB_map_replacePh j (resolve j) hv fs hwf)
      (List.Nodup.of_cons hnd)
      (fun i hi => hidwf i (List.mem_cons_of_mem _ hi))
      (fun i hi => hvwf i (List.mem_cons_of_mem _ hi))]
    simp only [List.foldl_cons, List.map_cons, List.sum_cons, Prod.mk.injEq, true_and]
    constructor
    · have hcounts : ∀ i ∈ rest, (phIds (fs.map (replacePh j (resolve j)))).count i
          = (phIds fs).count i := by
        intro i hi
        rw [phIds_map_replacePh]
        apply List.count_filter
        have hij : ¬ i = j := by
          intro h
          subst h
          exact (List.nodup_cons.mp hnd).1 hi
        simp [hij]
      rw [List.map_congr_left hcounts]
    · trivial

/-- Simultaneous substitution of every placeholder fragment by its resolved
value — what the spec describes as non-recursive uniform replacement. -/
def substAllFrags (resolve : List Char → List Char) : Frag → Frag
  | .lit s => .lit s
  | .ph i => .lit (resolve i)

theorem substAll_replacePh (resolve : List Char → List Char) (j : List Char) (f : Frag) :
    substAllFrags resolve (replacePh j (resolve j) f) = substAllFrags resolve f := by
  cases f with
  | lit s => rfl
  | ph i =>
    by_cases hij : i = j
    · subst hij
      simp [replacePh, substAllFrags]
    · simp [replacePh, if_neg hij]

theorem map_substAll_of_no_ph (resolve : List Char → List Char) :
    ∀ (fs : List Frag), phIds fs = [] → fs.map (substAllFrags resolve) = fs := by
  intro fs
  induction fs with
  | nil => intro _; rfl
  | cons f fs' ih =>
    intro h
    cases f with
    | lit s =>
      simp only [phIds, List.filterMap_cons] at h
      simp only [List.map_cons, substAllFrags]
      rw [ih h]
    | ph i =>
      simp only [phIds, List.filterMap_cons] at h
      exact absurd h (by simp)

/-- When the iteration order covers every placeholder identifier, the chain of
single-identifier replacements equals the simultaneous substitution. -/
theorem applyOrder_eq_substAll (resolve : List Char → List Char) :
    ∀ (order : List (List Char)) (fs : List Frag),
    (∀ i ∈ phIds fs, i ∈ order) →
    order.foldl (fun acc j => acc.map (replacePh j (resolve j))) fs
      = fs.map (substAllFrags resolve) := by
  intro order
  induction order with
  | nil =>
    intro fs hcov
    have hempty : phIds fs = [] := by
      cases h : phIds fs with
      | nil => rfl
      | cons i l =>
        have := hcov i (by rw [h]; exact List.mem_cons_self i l)
        simp at this
    simp only [List.foldl_nil]
    rw [map_substAll_of_no_ph resolve fs hempty]
  | cons j rest ih =>
    intro fs hcov
    simp only [List.foldl_cons]
    rw [ih (fs.map (replacePh j (resolve j)))]
    · rw [List.map_map]
      apply List.map_congr_left
      intro f _
      exact substAll_replacePh resolve j f
    · intro i hi
      rw [phIds_map_replacePh] at hi
      have := List.mem_filter.mp hi
      have hij : ¬ i = j := by simpa using this.2
      have := hcov i this.1
      rcases List.mem_cons.mp this with h | h
      · exact absurd h hij
      · exact h

/-- Every identifier produced by the placeholder scan is a nonempty
identifier-character run. -/
theorem findallF_wf : ∀ (fuel : Nat) (s : List Char) (id : List Char),
    id ∈ findallF fuel s → idWfB id = true := by
  intro fuel
  induction fuel with
  | zero =>
    intro s id h
    cases s <;> simp [findallF] at h
  | succ fuel ih =>
    intro s id h
    cases s with
    | nil => simp [findallF] at h
    | cons c rest =>
      simp only [findallF] at h
      split at h
      · rename_i hcond
        rcases List.mem_cons.mp h with h1 | h2
        · subst h1
          apply Bool.and_eq_true_iff.mpr
          constructor
          · simpa using hcond.2.1
          · exact List.all_eq_true.mpr (fun c hc => List.mem_takeWhile_imp hc)
        · exact ih _ id h2
      · exact ih rest id h

theorem findall_wf (s : List Char) (id : List Char) (h : id ∈ findall s) :
    idWfB id = true :=
  findallF_wf s.length s id h

theorem phIds_wf (fs : List Frag) (hwf : fragsWfB fs = true) :
    ∀ i ∈ phIds fs, idWfB i = true := by
  intro i hi
  simp only [phIds, List.mem_filterMap] at hi
  obtain ⟨f, hf, hmatch⟩ := hi
  cases f with
  | lit s => simp at hmatch
  | ph pid =>
    simp only [Option.some.injEq] at hmatch
    rw [← hmatch]
    exact List.all_eq_true.mp hwf (.ph pid) hf

/-- Master theorem for the substitution engine on a template made of
well-formed fragments, with `<`-free replacement values: the result is the
simultaneous fragment-wise substitution, the count is the sum over the
distinct identifiers of their occurrence counts in the original template, and
each distinct identifier is resolved exactly once, whatever iteration order
the `set` produces. -/
theorem substitute_file_render (resolve : List Char → List Char)
    (order : List (List Char)) (fs : List Frag)
    (hwf : fragsWfB fs = true)
    (hv : ∀ id ∈ phIds fs, (resolve id).contains '<' = false)
    (hperm : order.Perm (findall (render fs)).dedup) :
    substitute_file resolve order (render fs)
      = (render (fs.map (substAllFrags resolve)),
         ((phIds fs).dedup.map (fun j => countOccur (placeholderPat j) (render fs))).sum,
         order.map (fun j => (j, resolve j))) := by
  rw [findall_render fs hwf] at hperm
  by_cases hfind : findall (render fs) = []
  · have hempty : phIds fs = [] := by rw [← findall_render fs hwf]; exact hfind
    have horder : order = [] := by
      rw [hempty] at hperm
      simpa using hperm.eq_nil
    subst horder
    simp only [substitute_file, if_pos hfind]
    rw [map_substAll_of_no_ph resolve fs hempty, hempty]
    simp
  · simp only [substitute_file, if_neg hfind]
    have hnd : order.Nodup := hperm.nodup_iff.mpr (List.nodup_dedup _)
    have hmem : ∀ i, i ∈ order ↔ i ∈ phIds fs := by
      intro i
      rw [hperm.mem_iff, List.mem_dedup]
    have hidwf : ∀ id ∈ order, idWfB id = true :=
      fun id hid => phIds_wf fs hwf id ((hmem id).mp hid)
    have hvwf : ∀ id ∈ order, (resolve id).contains '<' = false :=
      fun id hid => hv id ((hmem id).mp hid)
    rw [substituteRun_render resolve order fs hwf hnd hidwf hvwf]
    rw [applyOrder_eq_substAll resolve order fs (fun i hi => (hmem i).mpr hi)]
    have hsum : (order.map (fun j => (phIds fs).count j)).sum
        = ((phIds fs).dedup.map (fun j => countOccur (placeholderPat j) (render fs))).sum := by
      have h1 : ((phIds fs).dedup.map (fun j => countOccur (placeholderPat j) (render fs)))
          = ((phIds fs).dedup.map (fun j => (phIds fs).count j)) := by
        apply List.map_congr_left
        intro j hj
        exact countOccur_render j (phIds_wf fs hwf j (List.mem_dedup.mp hj)) fs hwf
      rw [h1]
      exact (hperm.map (fun j => (phIds fs).count j)).sum_eq
    rw [hsum]

theorem char_toNat_ofNat_of_lt (n : Nat) (h : n < 55296) : (Char.ofNat n).toNat = n := by
  have hv : n.isValidChar := Or.inl h
  rw [Char.ofNat, dif_pos hv]
  rfl

theorem toLower_idem (c : Char) : c.toLower.toLower = c.toLower := by
  by_cases h : c.toNat ≥ 65 ∧ c.toNat ≤ 90
  · have h1 : c.toLower = Char.ofNat (c.toNat + 32) := by
      simp only [Char.toLower]
      rw [if_pos h]
    have ht : (Char.ofNat (c.toNat + 32)).toNat = c.toNat + 32 :=
      char_toNat_ofNat_of_lt _ (by omega)
    have h2 : ¬((Char.ofNat (c.toNat + 32)).toNat ≥ 65 ∧
        (Char.ofNat (c.toNat + 32)).toNat ≤ 90) := by
      rw [ht]
      omega
    rw [h1]
    simp only [Char.toLower]
    rw [if_neg h2]
  · have hfix : c.toLower = c := by
      simp only [Char.toLower]
      rw [if_neg h]
    rw [hfix]
    exact hfix

/-- The `direct_mappings` dictionary of `map_country_to_tag`
(lines 134-149): exact aliases mapped to country tags. -/
def direct_mappings : List (String × String) :=
  [("uk", "uk"), ("united kingdom", "uk"), ("britain", "uk"), ("great britain", "uk"),
   ("england", "uk"), ("scotland", "uk"), ("wales", "uk"), ("northern ireland", "uk"),
   ("usa", "usa"), ("united states", "usa"), ("us", "usa"), ("america", "usa"),
   ("switzerland", "switzerland"), ("spain", "spain")]

/-- The `european_countries` set of `map_country_to_tag` (lines 152-180). -/
def european_countries : List String :=
  ["germany", "france", "italy", "netherlands", "belgium", "austria", "denmark",
   "sweden", "norway", "finland", "portugal", "greece", "poland", "czech republic",
   "hungary", "slovenia", "slovakia", "estonia", "latvia", "lithuania", "luxembourg",
   "malta", "cyprus", "ireland", "romania", "bulgaria", "croatia"]

/-- `ResumeSubstituter.map_country_to_tag` (lines 117-191): lowercase the
input (ASCII case folding, which is what `str.lower` does on these tables),
look it up in the alias table, then in the European set, else `"default"`. -/
def map_country_to_tag (country : String) : String :=
  let country_lower : String := String.mk (country.toList.map Char.toLower)
  match direct_mappings.lookup country_lower with
  | some tag => tag
  | none => if country_lower ∈ european_countries then "europe" else "default"

example : map_country_to_tag "united kingdom" = "uk" := rfl
example : map_country_to_tag "ENGLAND" = "uk" := rfl
example : map_country_to_tag "Germany" = "europe" := rfl
example : map_country_to_tag "Mars" = "default" := rfl
example : map_country_to_tag "switzerland" = "switzerland" := rfl

/-- The country-tag set of `create_folder_structure` (line 216). -/
def country_tags : List String := ["uk", "usa", "switzerland", "europe", "spain"]

/-- The position-tag set of `create_folder_structure` (lines 217-224). -/
def position_tags : List String :=
  ["engineer", "researcher", "data_scientist", "developer", "software_engineer",
   "software_developer"]

/-- The classification loop of `create_folder_structure` (lines 231-237):
starting from `country = None`, `position = None`, `other_tags = []`, each tag
overwrites `country` when it is a country tag, else overwrites `position` when
it is a position tag, else is appended to `other_tags`. -/
def extractStep (acc : Option String × Option String × List String) (tag : String) :
    Option String × Option String × List String :=
  if tag ∈ country_tags then (some tag, acc.2.1, acc.2.2)
  else if tag ∈ position_tags then (acc.1, some tag, acc.2.2)
  else (acc.1, acc.2.1, acc.2.2 ++ [tag])

def extractTags (tags : List String) : Option String × Option String × List String :=
  tags.foldl extractStep (none, none, [])

example : extractTags ["usa", "data_scientist"] = (some "usa", some "data_scientist", []) := rfl
example : extractTags ["usa", "uk"] = (some "uk", none, []) := rfl

/-- Python `Path(p).name`: the final path component. -/
def pathFinalName (p : String) : List Char :=
  (p.toList.reverse.takeWhile (fun c => !(c == '/'))).reverse

/-- Python `Path(p).stem` and `Path(p).suffix` of the final component: split
at the last dot when that dot is neither the first nor the last character of
the name, else the suffix is empty. -/
def pathSplitExt (name : List Char) : List Char × List Char :=
  let rev := name.reverse
  let ext := rev.takeWhile (fun c => !(c == '.'))
  if ext.length = rev.length then (name, [])
  else if ext.isEmpty then (name, [])
  else
    let rest := rev.drop (ext.length + 1)
    if rest.isEmpty then (name, [])
    else (rest.reverse, '.' :: ext.reverse)

def pathStem (p : String) : String :=
  String.mk (pathSplitExt (pathFinalName p)).1

def pathSuffix (p : String) : String :=
  String.mk (pathSplitExt (pathFinalName p)).2

example : pathStem "resume.tex" = "resume" := rfl
example : pathSuffix "resume.tex" = ".tex" := rfl
example : pathStem "a/b/archive.tar.gz" = "archive.tar" := rfl
example : pathSuffix "archive.tar.gz" = ".gz" := rfl
example : pathStem ".bashrc" = ".bashrc" := rfl
example : pathSuffix ".bashrc" = "" := rfl
example : pathStem "file." = "file." := rfl
example : pathSuffix "file." = "" := rfl

/-- `ResumeSubstituter.create_folder_structure` (lines 193-262), pure part:
classify the tags, build `{country}/{folder}/Position/{stem}{suffix}`.  The
matched position tag is computed by the loop but not used in the path; the
`mkdir` side effect is not modelled. -/
def create_folder_structure (tags : List String) (base_output_file : String)
    (country_original : String) : String :=
  let extracted := extractTags tags
  let country : String := (extracted.1).getD "default"
  let other_tags : List String := extracted.2.2
  let base_name := pathStem base_output_file
  let extension := pathSuffix base_output_file
  let folder_name : String :=
    if other_tags.isEmpty then "_base" else "_base_" ++ String.intercalate "_" other_tags
  let folder_country : String := if country_original = "" then country else country_original
  folder_country ++ "/" ++ folder_name ++ "/" ++ "Position" ++ "/" ++ (base_name ++ extension)

example : create_folder_structure ["usa", "data_scientist"] "resume.tex" "USA"
    = "USA/_base/Position/resume.tex" := rfl
example : create_folder_structure ["usa", "data_scientist", "finance"] "resume.tex" "USA"
    = "USA/_base_finance/Position/resume.tex" := rfl
example : create_folder_structure [] "resume.tex" ""
    = "default/_base/Position/resume.tex" := rfl

/-- Declarative characterisation of the classification loop: the selected
country is the last country tag of the list, the selected position the last
position tag (checked only when the tag is not a country tag), and the other
tags are kept in their original order. -/
theorem extractTags_spec (tags : List String) :
    extractTags tags
      = ((tags.filter (fun t => decide (t ∈ country_tags))).getLast?,
         (tags.filter (fun t => decide (t ∉ country_tags ∧ t ∈ position_tags))).getLast?,
         tags.filter (fun t => decide (t ∉ country_tags ∧ t ∉ position_tags))) := by
  induction tags using List.reverseRecOn with
  | nil => rfl
  | append_singleton l t ih =>
    rw [extractTags, List.foldl_append, List.foldl_cons, List.foldl_nil]
    rw [show List.foldl extractStep (none, none, []) l = extractTags l from rfl, ih]
    simp only [extractStep, List.filter_append]
    by_cases hc : t ∈ country_tags
    · rw [if_pos hc]
      simp [hc, List.getLast?_concat]
    · rw [if_neg hc]
      by_cases hp : t ∈ position_tags
      · rw [if_pos hp]
        simp [hc, hp, List.getLast?_concat]
      · rw [if_neg hp]
        simp [hc, hp, List.getLast?_concat]

theorem any_key_of_lookup_some {kvs : List (String × Json)} {t : String} {v : Json}
    (h : kvs.lookup t = some v) : kvs.any (fun e => e.1 == t) = true := by
  induction kvs with
  | nil => simp at h
  | cons e kvs ih =>
    obtain ⟨k, b⟩ := e
    rw [List.any_cons]
    cases hbe : t == k with
    | true =>
      simp only [Bool.or_eq_true]
      left
      have : t = k := beq_iff_eq.mp hbe
      simp [this]
    | false =>
      rw [List.lookup_cons, hbe] at h
      simp only [Bool.or_eq_true]
      exact Or.inr (ih h)

theorem any_key_of_lookup_none {kvs : List (String × Json)} {t : String}
    (h : kvs.lookup t = none) : kvs.any (fun e => e.1 == t) = false := by
  induction kvs with
  | nil => rfl
  | cons e kvs ih =>
    obtain ⟨k, b⟩ := e
    rw [List.any_cons]
    cases hbe : t == k with
    | true =>
      rw [List.lookup_cons, hbe] at h
      simp at h
    | false =>
      rw [List.lookup_cons, hbe] at h
      simp only [Bool.or_eq_false_iff]
      constructor
      · have hne : ¬ t = k := by simpa using hbe
        simp only [beq_eq_false_iff_ne, ne_eq]
        intro he
        exact hne he.symm
      · exact ih h

/-- C1: the claim states that `_get_value_for_placeholder` never raises for a
non-mapping per-placeholder entry (null or scalar) and returns the literal
marker `<id>`.  The code only handles `None`: evaluated on the failing input
`config = \x7b"1": 7\x7d` with any tag list (even the empty one), the `in`
operator on the integer raises `TypeError` (`"default" in 7` on line 103, or
`tag in 7` on line 90), while a null entry does return the marker.  This
theorem exhibits the code's actual behaviour at the failing input. -/
theorem c1_nonmapping_scalar_raises :
    getValueForPlaceholder [("1", Json.null)] "1" ["x"] = .ok "<1>" ∧
    getValueForPlaceholder [("1", Json.num 7)] "1" [] = .error .typeError ∧
    getValueForPlaceholder [("1", Json.num 7)] "1" ["x"] = .error .typeError :=
  ⟨rfl, rfl, rfl⟩

/-- C3: when the entry for the placeholder is a mapping and some tag of the
list is one of its keys, resolution returns the (string-coerced) value stored
under the first such tag, ignoring later matching tags and the `"default"`
key. -/
theorem c3_first_tag_priority (config : List (String × Json)) (placeholder_id : String)
    (kvs : List (String × Json)) (pre post : List String) (t : String) (v : Json)
    (hcfg : config.lookup placeholder_id = some (Json.obj kvs))
    (hpre : ∀ t' ∈ pre, kvs.lookup t' = none)
    (ht : kvs.lookup t = some v) :
    getValueForPlaceholder config placeholder_id (pre ++ t :: post)
      = .ok (coerceStr v) := by
  have hscan : scanTags (Json.obj kvs) (pre ++ t :: post)
      = .ok (some (coerceStr v)) := by
    induction pre with
    | nil =>
      simp only [List.nil_append, scanTags, pyContains]
      rw [any_key_of_lookup_some ht]
      simp only [pySubscript, ht]
    | cons t' pre' ih =>
      have hnone : kvs.lookup t' = none := hpre t' (List.mem_cons_self t' pre')
      simp only [List.cons_append, scanTags, pyContains]
      rw [any_key_of_lookup_none hnone]
      exact ih (fun x hx => hpre x (List.mem_cons_of_mem _ hx))
  simp only [getValueForPlaceholder, hcfg, hscan]

/-- C3 witness: config `\x7b"1": \x7b"a": "A", "b": "B", "default": "D"\x7d\x7d`,
tags `["x", "b", "a"]`: the first matching tag is `"b"`, so resolution returns
`"B"`, ignoring the later match `"a"` and the default. -/
theorem c3_first_tag_priority_witness :
    getValueForPlaceholder
        [("1", Json.obj [("a", .str "A"), ("b", .str "B"), ("default", .str "D")])]
        "1" (["x"] ++ "b" :: ["a"]) = .ok (coerceStr (.str "B")) :=
  c3_first_tag_priority
    [("1", Json.obj [("a", .str "A"), ("b", .str "B"), ("default", .str "D")])] "1"
    [("a", .str "A"), ("b", .str "B"), ("default", .str "D")] ["x"] ["a"] "b" (.str "B")
    rfl
    (by
      intro t' ht'
      simp only [List.mem_singleton] at ht'
      subst ht'
      rfl)
    rfl

/-- C4: when the entry for the placeholder is a mapping and no tag of the list
(possibly empty) is one of its keys, resolution returns the `"default"` value
when that key exists, else the literal marker `<id>`. -/
theorem c4_default_fallback (config : List (String × Json)) (placeholder_id : String)
    (kvs : List (String × Json)) (tags : List String)
    (hcfg : config.lookup placeholder_id = some (Json.obj kvs))
    (htags : ∀ t ∈ tags, kvs.lookup t = none) :
    getValueForPlaceholder config placeholder_id tags
      = .ok (match kvs.lookup "default" with
             | some v => coerceStr v
             | none => "<" ++ placeholder_id ++ ">") := by
  have hscan : scanTags (Json.obj kvs) tags = .ok none := by
    induction tags with
    | nil => rfl
    | cons t' tags' ih =>
      have hnone : kvs.lookup t' = none := htags t' (List.mem_cons_self t' tags')
      simp only [scanTags, pyContains]
      rw [any_key_of_lookup_none hnone]
      exact ih (fun x hx => htags x (List.mem_cons_of_mem _ hx))
  simp only [getValueForPlaceholder, hcfg, hscan]
  cases hdef : kvs.lookup "default" with
  | some v =>
    simp only [resolveDefault, pyContains]
    rw [any_key_of_lookup_some hdef]
    simp only [pySubscript, hdef]
  | none =>
    simp only [resolveDefault, pyContains]
    rw [any_key_of_lookup_none hdef]

/-- C4 witness: with a default present and no matching tag the default is
returned; with no default and no matching tag the literal marker is
returned. -/
theorem c4_default_fallback_witness :
    getValueForPlaceholder [("1", Json.obj [("a", .str "A"), ("default", .str "D")])]
        "1" ["z"] = .ok "D" ∧
    getValueForPlaceholder [("2", Json.obj [("a", .str "A")])] "2" [] = .ok "<2>" :=
  ⟨c4_default_fallback [("1", Json.obj [("a", .str "A"), ("default", .str "D")])] "1"
      [("a", .str "A"), ("default", .str "D")] ["z"] rfl
      (by
        intro t' ht'
        simp only [List.mem_singleton] at ht'
        subst ht'
        rfl),
   c4_default_fallback [("2", Json.obj [("a", .str "A")])] "2" [("a", .str "A")] [] rfl
      (by
        intro t' ht'
        simp at ht')⟩

/-- Resolved values of the C2 counterexample configuration
`\x7b"1": \x7b"default": "<2>"\x7d, "2": \x7b"default": "<1>"\x7d\x7d` with an
empty tag list. -/
def resolveSwap : List Char → List Char := fun id =>
  if id = ['1'] then "<2>".toList else if id = ['2'] then "<1>".toList else []

/-- C2 counterexample: with the mutual configuration
`1 ↦ "<2>"`, `2 ↦ "<1>"` and template `"<1> <2>"`, the deduplicated
identifier list is `["1", "2"]`, and under BOTH possible set-iteration orders
the injected `<id>`-shaped text IS substituted again and DOES contribute to
the count: the reported count is 3, not 2, and the output is not the
non-recursive result `"<2> <1>"`.  The resolved values really come from the
configuration (first two conjuncts). -/
theorem c2_counterexample :
    getValueForPlaceholder
        [("1", .obj [("default", .str "<2>")]), ("2", .obj [("default", .str "<1>")])]
        "1" [] = .ok "<2>" ∧
    getValueForPlaceholder
        [("1", .obj [("default", .str "<2>")]), ("2", .obj [("default", .str "<1>")])]
        "2" [] = .ok "<1>" ∧
    (findall "<1> <2>".toList).dedup = [['1'], ['2']] ∧
    substitute_file resolveSwap [['1'], ['2']] "<1> <2>".toList
      = ("<1> <1>".toList, 3, [(['1'], "<2>".toList), (['2'], "<1>".toList)]) ∧
    substitute_file resolveSwap [['2'], ['1']] "<1> <2>".toList
      = ("<2> <2>".toList, 3, [(['2'], "<1>".toList), (['1'], "<2>".toList)]) ∧
    ¬ "<1> <1>".toList = "<2> <1>".toList ∧
    ¬ "<2> <2>".toList = "<2> <1>".toList ∧
    ¬ (3 : Nat) = 2 :=
  ⟨rfl, rfl, by decide, by decide, by decide, by decide, by decide, by decide⟩

/-- C2 amended: text outside placeholder spans is never modified and
replacement is non-recursive PROVIDED every resolved value contains no `<`
and every `<` of the template opens a grammar-matched placeholder span (the
template is a rendered well-formed fragment list); without that proviso an
earlier replacement can inject `<id>`-shaped text that a later iteration
substitutes again (see the counterexample).  Under the proviso the output is
the fragment-wise simultaneous substitution: literal chunks verbatim, each
span replaced once by its resolved value, for every set-iteration order. -/
theorem c2_amended (resolve : List Char → List Char) (order : List (List Char))
    (fs : List Frag) (hwf : fragsWfB fs = true)
    (hv : ∀ id ∈ phIds fs, (resolve id).contains '<' = false)
    (hperm : order.Perm (findall (render fs)).dedup) :
    (substitute_file resolve order (render fs)).1
      = render (fs.map (substAllFrags resolve)) := by
  rw [substitute_file_render resolve order fs hwf hv hperm]

/-- C2 amended witness: template `"Hello <1>!"`, value `"World"`. -/
theorem c2_amended_witness :
    (substitute_file (fun _ => "World".toList) [['1']]
        (render [Frag.lit "Hello ".toList, Frag.ph ['1'], Frag.lit "!".toList])).1
      = render (List.map (substAllFrags (fun _ => "World".toList))
          [Frag.lit "Hello ".toList, Frag.ph ['1'], Frag.lit "!".toList]) :=
  c2_amended (fun _ => "World".toList) [['1']]
    [Frag.lit "Hello ".toList, Frag.ph ['1'], Frag.lit "!".toList]
    (by decide) (by decide) (by decide)

/-- C5 counterexample: template `"<1><2>"` with the mutual configuration
`1 ↦ "<2>"`, `2 ↦ "<1>"`: under both set-iteration orders the reported count
is 3, not the sum 2 of the per-identifier occurrence counts of the template,
and occurrences of an identifier are not all uniformly replaced by its own
resolved value. -/
theorem c5_counterexample :
    countOccur (placeholderPat ['1']) "<1><2>".toList = 1 ∧
    countOccur (placeholderPat ['2']) "<1><2>".toList = 1 ∧
    substitute_file resolveSwap [['1'], ['2']] "<1><2>".toList
      = ("<1><1>".toList, 3, [(['1'], "<2>".toList), (['2'], "<1>".toList)]) ∧
    substitute_file resolveSwap [['2'], ['1']] "<1><2>".toList
      = ("<2><2>".toList, 3, [(['2'], "<1>".toList), (['1'], "<2>".toList)]) ∧
    ¬ (3 : Nat) = 1 + 1 :=
  ⟨by decide, by decide, by decide, by decide, by decide⟩

/-- C5 amended: provided every resolved value contains no `<` and every `<`
of the template opens a placeholder span, substitution resolves each distinct
identifier exactly once (the third component lists one resolved pair per
distinct identifier), replaces all its occurrences uniformly by that single
value, and the reported count is the sum over the distinct identifiers of
their occurrence counts in the original template — for every set-iteration
order.  Without the proviso the count sums occurrence counts over the
partially substituted content (see the counterexample). -/
theorem c5_amended (resolve : List Char → List Char) (order : List (List Char))
    (fs : List Frag) (hwf : fragsWfB fs = true)
    (hv : ∀ id ∈ phIds fs, (resolve id).contains '<' = false)
    (hperm : order.Perm (findall (render fs)).dedup) :
    substitute_file resolve order (render fs)
      = (render (fs.map (substAllFrags resolve)),
         ((phIds fs).dedup.map
           (fun j => countOccur (placeholderPat j) (render fs))).sum,
         order.map (fun j => (j, resolve j))) :=
  substitute_file_render resolve order fs hwf hv hperm

/-- C5 amended witness: the spec's own example, template `"<1> and <1> again"`
with `1 ↦ "X"`: output `"X and X again"`, count 2, one resolution. -/
theorem c5_amended_witness :
    substitute_file (fun _ => "X".toList) [['1']]
        (render [Frag.ph ['1'], Frag.lit " and ".toList, Frag.ph ['1'],
          Frag.lit " again".toList])
      = ("X and X again".toList, 2, [(['1'], "X".toList)]) := by
  have h := c5_amended (fun _ => "X".toList) [['1']]
    [Frag.ph ['1'], Frag.lit " and ".toList, Frag.ph ['1'], Frag.lit " again".toList]
    (by decide) (by decide) (by decide)
  rw [h]
  decide

/-- C6 counterexample: the claim says the FIRST country tag in list order is
selected, but the classification loop overwrites the slot, so for
`["usa", "uk"]` the selected country is `"uk"`, the LAST one; likewise for
position tags with `["engineer", "researcher"]`. -/
theorem c6_counterexample :
    extractTags ["usa", "uk"] = (some "uk", none, []) ∧
    ¬ (extractTags ["usa", "uk"]).1 = some "usa" ∧
    extractTags ["engineer", "researcher"] = (none, some "researcher", []) ∧
    ¬ (extractTags ["engineer", "researcher"]).2.1 = some "engineer" :=
  ⟨rfl, by decide, rfl, by decide⟩

/-- C6 amended: in output-path building the tags are partitioned so that the
selected country tag is the LAST tag in list order belonging to
`\x7buk, usa, switzerland, europe, spain\x7d`, the selected position tag is
the LAST tag belonging to the position set (among tags that are not country
tags), and all remaining tags are kept as "other" in their original order. -/
theorem c6_amended (tags : List String) :
    extractTags tags
      = ((tags.filter (fun t => decide (t ∈ country_tags))).getLast?,
         (tags.filter (fun t => decide (t ∉ country_tags ∧ t ∈ position_tags))).getLast?,
         tags.filter (fun t => decide (t ∉ country_tags ∧ t ∉ position_tags))) :=
  extractTags_spec tags

/-- C7: the country classifier is a total function (it is a Lean function on
all of `String`, so it is deterministic and never fails), is case-insensitive
(lowercasing the input first does not change the result), and maps the
claim's examples as stated: `"united kingdom"` and `"ENGLAND"` to `"uk"`,
`"Germany"` to `"europe"`, and the unknown `"Mars"` to `"default"`. -/
theorem c7_country_classifier :
    (map_country_to_tag "united kingdom" = "uk" ∧
     map_country_to_tag "ENGLAND" = "uk" ∧
     map_country_to_tag "Germany" = "europe" ∧
     map_country_to_tag "Mars" = "default") ∧
    ∀ s : String,
      map_country_to_tag (String.mk (s.toList.map Char.toLower)) = map_country_to_tag s := by
  refine ⟨⟨rfl, rfl, rfl, rfl⟩, ?_⟩
  intro s
  simp only [map_country_to_tag]
  have h1 : (String.mk (s.toList.map Char.toLower)).toList = s.toList.map Char.toLower :=
    rfl
  rw [h1, List.map_map]
  have h2 : s.toList.map (Char.toLower ∘ Char.toLower) = s.toList.map Char.toLower :=
    List.map_congr_left (fun c _ => toLower_idem c)
  rw [h2]

/-- C8: on a text with no span matching the placeholder grammar the engine
returns the text unchanged, with substitution count 0 and an empty resolved
list, for any resolver and any iteration order — and this is an ordinary
return, not an error. -/
theorem c8_no_placeholders (resolve : List Char → List Char)
    (order : List (List Char)) (t : List Char) (h : findall t = []) :
    substitute_file resolve order t = (t, 0, []) := by
  simp only [substitute_file, if_pos h]

/-- C8 witness: a text with `<`-shaped spans that all fail the grammar. -/
theorem c8_no_placeholders_witness :
    findall "a < b > c <> <a-b> <foo bar> end".toList = [] ∧
    substitute_file (fun _ => "X".toList) [] "a < b > c <> <a-b> <foo bar> end".toList
      = ("a < b > c <> <a-b> <foo bar> end".toList, 0, []) :=
  ⟨by decide, c8_no_placeholders (fun _ => "X".toList) [] _ (by decide)⟩

/-- C9: the two concrete path-building examples of the claim, and the general
folder-name and country-segment rules: the folder name is `"_base_"` followed
by the underscore-joined other tags when any exist, else the literal
`"_base"`; the country segment is the original country name when non-empty,
else the matched country tag (the last country tag of the list), else
`"default"`; the position segment is the fixed literal `"Position"` and the
file name is the stem plus suffix of the base file. -/
theorem c9_path_building :
    (create_folder_structure ["usa", "data_scientist"] "resume.tex" "USA"
        = "USA/_base/Position/resume.tex" ∧
     create_folder_structure ["usa", "data_scientist", "finance"] "resume.tex" "USA"
        = "USA/_base_finance/Position/resume.tex") ∧
    ∀ (tags : List String) (base country_original : String),
      create_folder_structure tags base country_original
        = (if country_original = ""
             then ((tags.filter (fun t => decide (t ∈ country_tags))).getLast?).getD
               "default"
             else country_original)
          ++ "/"
          ++ (if (tags.filter
                (fun t => decide (t ∉ country_tags ∧ t ∉ position_tags))).isEmpty
              then "_base"
              else "_base_" ++ String.intercalate "_"
                (tags.filter (fun t => decide (t ∉ country_tags ∧ t ∉ position_tags))))
          ++ "/" ++ "Position" ++ "/" ++ (pathStem base ++ pathSuffix base) := by
  refine ⟨⟨rfl, rfl⟩, ?_⟩
  intro tags base country_original
  simp only [create_folder_structure, extractTags_spec]

/-- C10: a `<...>` span that does not match the placeholder grammar is left
verbatim in the substituted output and contributes nothing to the
substitution count: for any surrounding text, any resolver, and any
set-iteration order of the found identifiers, substituting
`X ++ m ++ Y` yields the substitution of `X`, then `m` verbatim, then the
substitution of `Y`, and the count is the sum of the counts for `X` and for
`Y` alone. -/
theorem c10_malformed_span_inert (resolve : List Char → List Char)
    (order : List (List Char)) (X m Y : List Char) (hm : isBadSpan m = true)
    (hperm : order.Perm (findall (X ++ (m ++ Y))).dedup) :
    substitute_file resolve order (X ++ (m ++ Y))
      = ((substituteRun resolve order X).1
           ++ (m ++ (substituteRun resolve order Y).1),
         (substituteRun resolve order X).2.1 + (substituteRun resolve order Y).2.1,
         order.map (fun id => (id, resolve id))) := by
  have hidwf : ∀ id ∈ order, idWfB id = true := by
    intro id hid
    have : id ∈ (findall (X ++ (m ++ Y))).dedup := hperm.mem_iff.mp hid
    exact findall_wf _ id (List.mem_dedup.mp this)
  by_cases hfind : findall (X ++ (m ++ Y)) = []
  · have horder : order = [] := by
      rw [hfind] at hperm
      simpa using hperm.eq_nil
    subst horder
    simp only [substitute_file, if_pos hfind]
    rfl
  · simp only [substitute_file, if_neg hfind]
    exact substituteRun_badSpan resolve m hm order hidwf X Y

/-- C10 witness: template `"a <a-b> <1>b"` with the malformed span `"<a-b>"`
kept verbatim while `<1>` is substituted and counted. -/
theorem c10_malformed_span_inert_witness :
    isBadSpan "<a-b>".toList = true ∧
    substitute_file (fun _ => "X".toList) [['1']]
        ("a ".toList ++ ("<a-b>".toList ++ " <1>b".toList))
      = ((substituteRun (fun _ => "X".toList) [['1']] "a ".toList).1
           ++ ("<a-b>".toList
             ++ (substituteRun (fun _ => "X".toList) [['1']] " <1>b".toList).1),
         (substituteRun (fun _ => "X".toList) [['1']] "a ".toList).2.1
           + (substituteRun (fun _ => "X".toList) [['1']] " <1>b".toList).2.1,
         [(['1'], "X".toList)]) :=
  ⟨by decide,
   c10_malformed_span_inert (fun _ => "X".toList) [['1']] "a ".toList "<a-b>".toList
     " <1>b".toList (by decide) (by decide)⟩
